import Mathlib

/-!
A verification development for a feature-toggle auditing repository.

The repository consists of a CI script `scripts/enforce-toggles.js` that

1. loads a JSON manifest of valid toggle keys,
2. walks the source tree (skipping `node_modules`, keeping `.js`, `.jsx`,
   `.ts`, `.tsx` files),
3. extracts first-argument string literals of `useReleaseToggle(...)` calls
   with the global regex `/useReleaseToggle\s*\(\s*['"\x60]([^'"\x60]+)['"\x60]/g`,
4. reports the used keys that are absent from the manifest as a single
   warning, exiting 0; a manifest load failure exits 2,

and a React hook `src/utils/useReleaseToggle.jsx` that looks a toggle key up
in an entitlements mapping, falling back to a configurable default.

This file embeds those programs shallowly and proves the specified
properties about the embedding.
-/

/-! ## JSON values

The manifest file is parsed with `JSON.parse`; we model parsed JSON
documents.  Parse or read failure is modelled as `Option.none` at the
call sites that consume a parse result. -/

inductive JsonValue where
  | null
  | bool (b : Bool)
  | num (q : Int)
  | str (s : String)
  | arr (elems : List JsonValue)
  | obj (fields : List (String × JsonValue))
  deriving Repr

/-! ## loadManifest

```js
function loadManifest() {
  try {
    const raw = readFileSync(MANIFEST_PATH, "utf-8");
    const data = JSON.parse(raw);
    return Array.isArray(data) ? data : Object.keys(data);
  } catch (e) {
    console.error(...); process.exit(2);
  }
}
```

`Object.keys` on `null` throws a `TypeError` (caught by the surrounding
`try`, hence exit 2); on a number or boolean it returns `[]`; on a string
it returns the character indices `"0", "1", ...`; on an object it returns
the own enumerable keys.  `loadManifestValue` embeds the body after a
successful parse; `none` means the `catch` branch is taken. -/

def loadManifestValue : JsonValue → Option (List JsonValue)
  | .arr xs => some xs
  | .null => none
  | .obj kvs => some (kvs.map fun kv => JsonValue.str kv.1)
  | .str s => some ((List.range s.length).map fun i => JsonValue.str (Nat.repr i))
  | .num _ => some []
  | .bool _ => some []

def loadManifest (parsed : Option JsonValue) : Option (List JsonValue) :=
  parsed.bind loadManifestValue

/-! ## File-system model and walkJsFiles

```js
function* walkJsFiles(dir) {
  const entries = readdirSync(dir, { withFileTypes: true });
  for (const e of entries) {
    const full = join(dir, e.name);
    if (e.isDirectory() && e.name !== "node_modules") {
      yield* walkJsFiles(full);
    } else if (e.isFile() && /\.(jsx?|tsx?)$/.test(e.name)) {
      yield full;
    }
  }
}
```

A directory is a list of named entries; we walk it in order, returning the
contents of the matching files (the script immediately reads each yielded
path, so yielding contents is the same data flow). -/

inductive FsEntry where
  | file (name : String) (content : String)
  | dir (name : String) (entries : List FsEntry)
  deriving Repr

/-- Whether the second list starts with the first. -/
def leadsWith : List Char → List Char → Bool
  | [], _ => true
  | _ :: _, [] => false
  | p :: ps, c :: cs => c = p && leadsWith ps cs

/-- Whether `s` ends with the suffix `suf`, by comparing reversals. -/
def endsWithChars (s suf : List Char) : Bool :=
  leadsWith suf.reverse s.reverse

/-- The test `/\.(jsx?|tsx?)$/.test(name)`: the name ends in `.js`, `.jsx`,
`.ts` or `.tsx`. -/
def hasSourceExt (name : String) : Bool :=
  endsWithChars name.toList ".js".toList ||
    endsWithChars name.toList ".jsx".toList ||
    endsWithChars name.toList ".ts".toList ||
    endsWithChars name.toList ".tsx".toList

mutual

/-- One loop iteration of the walk: recurse into a directory unless it is
named `node_modules`, yield a file when its name has a source extension. -/
def walkEntry : FsEntry → List String
  | .file n c => if hasSourceExt n then [c] else []
  | .dir n es => if n = "node_modules" then [] else walkJsFiles es

def walkJsFiles : List FsEntry → List String
  | [] => []
  | e :: rest => walkEntry e ++ walkJsFiles rest

end

/-! ## The toggle-call regex

`/useReleaseToggle\s*\(\s*['"\x60]([^'"\x60]+)['"\x60]/g` executed in a loop:
each `exec` finds the leftmost match at or after `lastIndex` and advances
`lastIndex` past it.  We embed this as a character-list scanner: try to
match at the current position; on success capture the key and resume after
the match, otherwise advance one character. -/

/-- JavaScript `\s` (the WhiteSpace and LineTerminator productions). -/
def isJsWhitespace (c : Char) : Bool :=
  c.val = 9 || c.val = 10 || c.val = 11 || c.val = 12 || c.val = 13 ||
  c.val = 32 || c.val = 160 || c.val = 0x1680 ||
  (0x2000 ≤ c.val && c.val ≤ 0x200a) ||
  c.val = 0x2028 || c.val = 0x2029 || c.val = 0x202f ||
  c.val = 0x205f || c.val = 0x3000 || c.val = 0xfeff

/-- The character class `['"\x60]`: single quote (39), double quote (34),
backtick (96). -/
def isQuoteChar (c : Char) : Bool :=
  c.val = 39 || c.val = 34 || c.val = 96

/-- An open parenthesis. -/
def isOpenParen (c : Char) : Bool := c.val = 40

def hookName : List Char := "useReleaseToggle".toList

/-- Split a list into its longest satisfying head run and the remainder
(the greedy semantics of `\s*` and `[^'"\x60]+` over their character
classes). -/
def munchWhile (p : Char → Bool) : List Char → List Char × List Char
  | [] => ([], [])
  | c :: cs =>
      if p c then
        let t := munchWhile p cs
        (c :: t.1, t.2)
      else ([], c :: cs)

/-- Match a literal character sequence at the head, returning the rest. -/
def dropLit : List Char → List Char → Option (List Char)
  | [], cs => some cs
  | _ :: _, [] => none
  | p :: ps, c :: cs => if c = p then dropLit ps cs else none

/-- Match one character of the class `p` at the head, returning it and the
rest. -/
def chompChar (p : Char → Bool) : List Char → Option (Char × List Char)
  | [] => none
  | c :: cs => if p c then some (c, cs) else none

/-- Match `([^'"\x60]+)['"\x60]` at the head: a non-empty greedy run of
non-quote characters (the capture), then a closing quote character.
Returns capture, closing quote, and remainder. -/
def chompKey (cs : List Char) : Option (List Char × Char × List Char) :=
  match (munchWhile (fun c => !isQuoteChar c) cs).1,
        (munchWhile (fun c => !isQuoteChar c) cs).2 with
  | [], _ => none
  | key, q2 :: r4 => if isQuoteChar q2 then some (key, (q2, r4)) else none
  | _ :: _, [] => none

/-- Match the whole regex at the head of `cs`: the hook name, `\s*`, `(`,
`\s*`, an opening quote, a non-empty run of non-quote characters
(captured), and a closing quote character.  Returns the capture and the
remainder after the match.  (The regex engine's greedy runs are forced
here: inside `\s*` every character of the run is whitespace and the
follower is not, and the capture `[^'"\x60]+` must stop at the first quote
character, which then serves as the closing quote.) -/
def matchToggleCall (cs : List Char) : Option (List Char × List Char) := do
  let r1 ← dropLit hookName cs
  let o ← chompChar isOpenParen (munchWhile isJsWhitespace r1).2
  let q ← chompChar isQuoteChar (munchWhile isJsWhitespace o.2).2
  let kqr ← chompKey q.2
  return (kqr.1, kqr.2.2)

/-- The `while ((m = TOGGLE_CALL_RE.exec(content)) !== null)` loop: collect
every capture of the global regex, left to right, resuming after each
match.  The recursion is bounded by a fuel parameter for structural
evaluation; since every iteration consumes at least one character
(`matchToggleCall_rest_length`), a fuel equal to the content length is
enough, and `scanKeysAux_fuel_ge` below shows the result has stabilized at
that fuel. -/
def scanKeysAux : Nat → List Char → List String
  | 0, _ => []
  | fuel + 1, cs =>
    match matchToggleCall cs with
    | some kr => String.mk kr.1 :: scanKeysAux fuel kr.2
    | none =>
      match cs with
      | [] => []
      | _ :: cs' => scanKeysAux fuel cs'

def scanKeys (cs : List Char) : List String := scanKeysAux cs.length cs

/-! ## Key sets

`new Set()` with insertion via `add`: a duplicate-free list in insertion
order. -/

def addKey (acc : List String) (k : String) : List String :=
  if k ∈ acc then acc else acc ++ [k]

/-- `extractToggleKeysFromFile`: scan one file's content and collect the
captures into a set. -/
def extractToggleKeysFromFile (content : String) : List String :=
  (scanKeys content.toList).foldl addKey []

/-- The used-key set of a sequence of file contents: union of the per-file
sets, in traversal order. -/
def usedOfFiles (files : List String) : List String :=
  files.foldl (fun used f => (extractToggleKeysFromFile f).foldl addKey used) []

/-- `extractAllUsedKeys`: walk the source tree and union all per-file key
sets. -/
def extractAllUsedKeys (tree : List FsEntry) : List String :=
  usedOfFiles (walkJsFiles tree)

/-! ## main

```js
function main() {
  const defined = new Set(loadManifest());
  const used = extractAllUsedKeys();
  const unknown = [...used].filter((k) => !defined.has(k));
  if (unknown.length > 0) { console.warn(..., unknown); return; }
  console.log("CI enforce toggles: all used toggle keys are defined.");
}
```

`defined.has(k)` for a string `k` (SameValueZero): true exactly when some
manifest element is the string `k`. -/

def setHasStr (defined : List JsonValue) (k : String) : Bool :=
  defined.any fun v =>
    match v with
    | .str s => s = k
    | _ => false

def computeUnknown (defined : List JsonValue) (used : List String) : List String :=
  used.filter fun k => !setHasStr defined k

inductive Message where
  | warning (keys : List String)
  | success
  deriving Repr, DecidableEq

/-- Outcome of one run: either the process exits early with a fatal code
(manifest failure), or it completes and emits console messages. -/
inductive RunResult where
  | fatal (code : Nat)
  | done (messages : List Message)
  deriving Repr, DecidableEq

def RunResult.exitCode : RunResult → Nat
  | .fatal c => c
  | .done _ => 0

def RunResult.messages : RunResult → List Message
  | .fatal _ => []
  | .done ms => ms

/-- The whole script: `parsedManifest` is the result of reading and
JSON-parsing the manifest file (`none` = unreadable or unparsable),
`srcTree` the entries of the source directory. -/
def enforceTogglesMain (parsedManifest : Option JsonValue)
    (srcTree : List FsEntry) : RunResult :=
  match loadManifest parsedManifest with
  | none => .fatal 2
  | some defined =>
    let used := extractAllUsedKeys srcTree
    let unknown := computeUnknown defined used
    if unknown.length > 0 then .done [.warning unknown]
    else .done [.success]

/-! ## The hook `useReleaseToggle`

```js
const useReleaseToggle = (toggleKey, { defaultValue = true, alertIfUnknown = true } = {}) => {
  const entitlements = useSelector((state) => state.common.entitlements);
  const toggleExists = entitlements &&
    Object.prototype.hasOwnProperty.call(entitlements, toggleKey);
  useEffect(() => { if (!toggleExists && alertIfUnknown) { ... } }, ...);
  return toggleExists ? entitlements[toggleKey] : defaultValue;
};
```

The entitlements slot is a mapping from string keys to values, or
null/undefined (`none`).  The hook's result is the returned value paired
with whether the unknown-key effect fires. -/

structure HookOptions where
  defaultValue : JsonValue := .bool true
  alertIfUnknown : Bool := true
  deriving Repr

def hasOwnProp (m : List (String × JsonValue)) (k : String) : Bool :=
  m.any fun kv => kv.1 = k

/-- JavaScript property read `m[k]` for a present own property. -/
def lookupProp (m : List (String × JsonValue)) (k : String) : JsonValue :=
  match m.find? (fun kv => kv.1 = k) with
  | some kv => kv.2
  | none => .null

def useReleaseToggle (toggleKey : String) (opts : HookOptions)
    (entitlements : Option (List (String × JsonValue))) : JsonValue × Bool :=
  let toggleExists :=
    match entitlements with
    | none => false
    | some m => hasOwnProp m toggleKey
  let alertFires := !toggleExists && opts.alertIfUnknown
  (match entitlements with
   | none => opts.defaultValue
   | some m =>
       if hasOwnProp m toggleKey then lookupProp m toggleKey
       else opts.defaultValue,
   alertFires)

/-! ## The textual pattern, declaratively

For comparing the extractor against the specification text, the pattern is
restated as a predicate on raw content.  Two variants are needed, because
the specification's wording and the regex's character classes do not
coincide:

* `toggleOccurrence` follows the spec's words: a call-like token followed
  by optional whitespace, `(`, optional whitespace, and "a quoted string
  literal (single-quoted, double-quoted, or backtick-delimited with no
  embedded substitution)" — so the two delimiters agree, and a
  backtick-delimited body contains no template substitution (a dollar sign
  immediately followed by an opening brace).
* `regexOccurrence` is the pattern the source regex
  `useReleaseToggle\s*\(\s*['"\x60]([^'"\x60]+)['"\x60]` actually
  implements: the closing delimiter is any quote character, not
  necessarily the opening one, and template substitutions are not
  excluded.

Every spec occurrence is a regex occurrence, but not conversely. -/

/-- Whether a character list contains a template substitution opener: a
dollar sign (36) immediately followed by an opening brace (123). -/
def hasTemplateSubst : List Char → Bool
  | c1 :: c2 :: rest =>
      (c1.val = 36 && c2.val = 123) || hasTemplateSubst (c2 :: rest)
  | _ => false

def toggleOccurrence (cs key : List Char) : Prop :=
  ∃ (pre ws1 ws2 post : List Char) (po q : Char),
    cs = pre ++ hookName ++ ws1 ++ po :: ws2 ++ q :: key ++ q :: post ∧
    (∀ c ∈ ws1, isJsWhitespace c = true) ∧
    (∀ c ∈ ws2, isJsWhitespace c = true) ∧
    isOpenParen po = true ∧ isQuoteChar q = true ∧
    key ≠ [] ∧ (∀ c ∈ key, isQuoteChar c = false) ∧
    (q.val = 96 → hasTemplateSubst key = false)

def regexOccurrence (cs key : List Char) : Prop :=
  ∃ (pre ws1 ws2 post : List Char) (po q1 q2 : Char),
    cs = pre ++ hookName ++ ws1 ++ po :: ws2 ++ q1 :: key ++ q2 :: post ∧
    (∀ c ∈ ws1, isJsWhitespace c = true) ∧
    (∀ c ∈ ws2, isJsWhitespace c = true) ∧
    isOpenParen po = true ∧ isQuoteChar q1 = true ∧ isQuoteChar q2 = true ∧
    key ≠ [] ∧ (∀ c ∈ key, isQuoteChar c = false)

/-! ## Basic scanner lemmas -/

theorem munchWhile_append (p : Char → Bool) :
    ∀ cs : List Char, (munchWhile p cs).1 ++ (munchWhile p cs).2 = cs := by
  intro cs
  induction cs with
  | nil => simp [munchWhile]
  | cons c cs ih =>
    by_cases h : p c = true
    · simp [munchWhile, h, ih]
    · simp [munchWhile, h]

theorem munchWhile_fst_all (p : Char → Bool) :
    ∀ cs : List Char, ∀ c ∈ (munchWhile p cs).1, p c = true := by
  intro cs
  induction cs with
  | nil => simp [munchWhile]
  | cons c cs ih =>
    by_cases h : p c = true
    · simp [munchWhile, h]
      exact ih
    · simp [munchWhile, h]

theorem munchWhile_snd_length (p : Char → Bool) (cs : List Char) :
    (munchWhile p cs).2.length ≤ cs.length := by
  have := congrArg List.length (munchWhile_append p cs)
  simp at this
  omega

theorem dropLit_eq_append {ps cs r : List Char} (h : dropLit ps cs = some r) :
    cs = ps ++ r := by
  induction ps generalizing cs with
  | nil => simp [dropLit] at h; simp [h]
  | cons p ps ih =>
    cases cs with
    | nil => simp [dropLit] at h
    | cons c cs =>
      by_cases hc : c = p
      · simp [dropLit, hc] at h
        simp [hc, ih h]
      · simp [dropLit, hc] at h

theorem chompChar_eq {p : Char → Bool} {cs : List Char} {c : Char}
    {r : List Char} (h : chompChar p cs = some (c, r)) :
    cs = c :: r ∧ p c = true := by
  cases cs with
  | nil => simp [chompChar] at h
  | cons c0 cs =>
    by_cases hp : p c0 = true
    · simp [chompChar, hp] at h
      obtain ⟨h1, h2⟩ := h
      subst h1
      subst h2
      exact ⟨rfl, hp⟩
    · simp [chompChar, hp] at h

theorem chompKey_eq {cs key rest : List Char} {q2 : Char}
    (h : chompKey cs = some (key, q2, rest)) :
    cs = key ++ q2 :: rest ∧ key ≠ [] ∧
      (∀ c ∈ key, isQuoteChar c = false) ∧ isQuoteChar q2 = true := by
  unfold chompKey at h
  cases hk : (munchWhile (fun c => !isQuoteChar c) cs).1 with
  | nil => rw [hk] at h; simp at h
  | cons k0 ks =>
    rw [hk] at h
    cases ht : (munchWhile (fun c => !isQuoteChar c) cs).2 with
    | nil => rw [ht] at h; simp at h
    | cons qq r =>
      rw [ht] at h
      by_cases hq : isQuoteChar qq = true
      · simp [hq] at h
        obtain ⟨h1, h2, h3⟩ := h
        subst h2
        subst h3
        have e := munchWhile_append (fun c => !isQuoteChar c) cs
        rw [hk, ht] at e
        refine ⟨by rw [← e, h1], by rw [← h1]; simp, ?_, hq⟩
        intro c hc
        rw [← h1, ← hk] at hc
        have := munchWhile_fst_all (fun c => !isQuoteChar c) cs c hc
        simpa using this
      · simp [hq] at h

/-- A successful match decomposes its input: the matched span is the hook
name, a whitespace run, `(`, a whitespace run, a quote, the non-empty
quote-free capture, and a closing quote; `rest` follows. -/
theorem matchToggleCall_decomp {cs key rest : List Char}
    (h : matchToggleCall cs = some (key, rest)) :
    ∃ (ws1 ws2 : List Char) (po q1 q2 : Char),
      cs = hookName ++ ws1 ++ po :: ws2 ++ q1 :: key ++ q2 :: rest ∧
      (∀ c ∈ ws1, isJsWhitespace c = true) ∧
      (∀ c ∈ ws2, isJsWhitespace c = true) ∧
      isOpenParen po = true ∧ isQuoteChar q1 = true ∧ isQuoteChar q2 = true ∧
      key ≠ [] ∧ (∀ c ∈ key, isQuoteChar c = false) := by
  unfold matchToggleCall at h
  cases hd : dropLit hookName cs with
  | none => rw [hd] at h; simp at h
  | some r1 =>
    rw [hd] at h
    simp only [Option.bind_eq_bind, Option.some_bind] at h
    cases ho : chompChar isOpenParen (munchWhile isJsWhitespace r1).2 with
    | none => rw [ho] at h; simp at h
    | some oc =>
      rw [ho] at h
      simp only [Option.some_bind] at h
      cases hq : chompChar isQuoteChar (munchWhile isJsWhitespace oc.2).2 with
      | none => rw [hq] at h; simp at h
      | some qc =>
        rw [hq] at h
        simp only [Option.some_bind] at h
        cases hc : chompKey qc.2 with
        | none => rw [hc] at h; simp at h
        | some kqr =>
          obtain ⟨k2, q2, r4⟩ := kqr
          rw [hc] at h
          simp at h
          obtain ⟨hkey, hrest⟩ := h
          subst hkey
          subst hrest
          obtain ⟨e6, hne, hnq, hq2⟩ := chompKey_eq hc
          refine ⟨(munchWhile isJsWhitespace r1).1,
            (munchWhile isJsWhitespace oc.2).1, oc.1, qc.1, q2,
            ?_, munchWhile_fst_all _ _, munchWhile_fst_all _ _,
            (chompChar_eq ho).2, (chompChar_eq hq).2, hq2, hne, hnq⟩
          have e1 : cs = hookName ++ r1 := dropLit_eq_append hd
          have e2 : (munchWhile isJsWhitespace r1).1 ++
              (munchWhile isJsWhitespace r1).2 = r1 :=
            munchWhile_append _ _
          have e3 : (munchWhile isJsWhitespace r1).2 = oc.1 :: oc.2 :=
            (chompChar_eq ho).1
          have e4 : (munchWhile isJsWhitespace oc.2).1 ++
              (munchWhile isJsWhitespace oc.2).2 = oc.2 :=
            munchWhile_append _ _
          have e5 : (munchWhile isJsWhitespace oc.2).2 = qc.1 :: qc.2 :=
            (chompChar_eq hq).1
          set w1 := (munchWhile isJsWhitespace r1).1 with hw1
          set w2 := (munchWhile isJsWhitespace oc.2).1 with hw2
          rw [e3] at e2
          rw [e5, e6] at e4
          rw [e1, ← e2, ← e4]
          simp

/-- A successful match consumes at least one character (in fact at least
the hook name and the quoted key), so the scan loop advances. -/
theorem matchToggleCall_rest_length {cs key rest : List Char}
    (h : matchToggleCall cs = some (key, rest)) : rest.length < cs.length := by
  obtain ⟨ws1, ws2, po, q1, q2, he, -⟩ := matchToggleCall_decomp h
  have := congrArg List.length he
  simp [hookName] at this
  omega

theorem scanKeysAux_nil (fuel : Nat) : scanKeysAux fuel [] = [] := by
  cases fuel with
  | zero => rfl
  | succ f =>
    have hm : matchToggleCall [] = none := by rfl
    simp [scanKeysAux, hm]

/-- Any fuel at least the content length gives the same scan result: the
fuel is an artifact of the embedding, not of the loop. -/
theorem scanKeysAux_congr :
    ∀ (f1 f2 : Nat) (cs : List Char), cs.length ≤ f1 → cs.length ≤ f2 →
      scanKeysAux f1 cs = scanKeysAux f2 cs := by
  intro f1
  induction f1 with
  | zero =>
    intro f2 cs h1 _
    have : cs = [] := List.length_eq_zero.mp (by omega)
    simp [this, scanKeysAux_nil]
  | succ f1 ih =>
    intro f2 cs h1 h2
    cases cs with
    | nil => simp [scanKeysAux_nil]
    | cons c cs' =>
      cases f2 with
      | zero => simp at h2
      | succ f2' =>
        cases hm : matchToggleCall (c :: cs') with
        | some kr =>
          have hlt : kr.2.length < (c :: cs').length := by
            obtain ⟨k, r⟩ := kr
            exact matchToggleCall_rest_length hm
          have e1 : scanKeysAux (f1 + 1) (c :: cs') =
              String.mk kr.1 :: scanKeysAux f1 kr.2 := by
            simp [scanKeysAux, hm]
          have e2 : scanKeysAux (f2' + 1) (c :: cs') =
              String.mk kr.1 :: scanKeysAux f2' kr.2 := by
            simp [scanKeysAux, hm]
          have hlen : kr.2.length ≤ f1 ∧ kr.2.length ≤ f2' := by
            simp only [List.length_cons] at hlt h1 h2
            omega
          rw [e1, e2, ih f2' kr.2 hlen.1 hlen.2]
        | none =>
          have e1 : scanKeysAux (f1 + 1) (c :: cs') = scanKeysAux f1 cs' := by
            simp [scanKeysAux, hm]
          have e2 : scanKeysAux (f2' + 1) (c :: cs') = scanKeysAux f2' cs' := by
            simp [scanKeysAux, hm]
          have hlen : cs'.length ≤ f1 ∧ cs'.length ≤ f2' := by
            simp only [List.length_cons] at h1 h2
            omega
          rw [e1, e2, ih f2' cs' hlen.1 hlen.2]

theorem scanKeysAux_fuel_ge {fuel : Nat} {cs : List Char}
    (hf : cs.length ≤ fuel) : scanKeysAux fuel cs = scanKeys cs :=
  scanKeysAux_congr fuel cs.length cs hf le_rfl

example : scanKeys "useReleaseToggle('known')".toList = ["known"] := by decide
example :
    extractToggleKeysFromFile
      "a useReleaseToggle(\"x\") b useReleaseToggle('x') useReleaseToggle(v)" =
      ["x"] := by decide

/-! ## Soundness of the scanner against the declarative pattern -/

theorem regexOccurrence_prepend (xs : List Char) {r key : List Char}
    (h : regexOccurrence r key) : regexOccurrence (xs ++ r) key := by
  obtain ⟨pre, ws1, ws2, post, po, q1, q2, he, h1, h2, h3, h4, h5, h6, h7⟩ := h
  exact ⟨xs ++ pre, ws1, ws2, post, po, q1, q2, by rw [he]; simp,
    h1, h2, h3, h4, h5, h6, h7⟩

theorem scanKeysAux_sound :
    ∀ (fuel : Nat) (cs : List Char) (k : String),
      k ∈ scanKeysAux fuel cs → regexOccurrence cs k.toList := by
  intro fuel
  induction fuel with
  | zero => intro cs k h; simp [scanKeysAux] at h
  | succ fuel ih =>
    intro cs k h
    cases hm : matchToggleCall cs with
    | some kr =>
      obtain ⟨k1, r1⟩ := kr
      rw [show scanKeysAux (fuel + 1) cs =
          String.mk k1 :: scanKeysAux fuel r1 by simp [scanKeysAux, hm]] at h
      obtain ⟨ws1, ws2, po, q1, q2, he, hws1, hws2, hpo, hq1, hq2, hne, hnq⟩ :=
        matchToggleCall_decomp hm
      rcases List.mem_cons.mp h with rfl | h
      · exact ⟨[], ws1, ws2, r1, po, q1, q2, by rw [he]; simp,
          hws1, hws2, hpo, hq1, hq2, hne, hnq⟩
      · have hr : regexOccurrence r1 k.toList := ih r1 k h
        have hcs : cs = (hookName ++ ws1 ++ po :: ws2 ++ q1 :: k1 ++ [q2]) ++
            r1 := by
          rw [he]; simp
        rw [hcs]
        exact regexOccurrence_prepend _ hr
    | none =>
      cases cs with
      | nil => simp [scanKeysAux, hm] at h
      | cons c cs' =>
        rw [show scanKeysAux (fuel + 1) (c :: cs') = scanKeysAux fuel cs' by
          simp [scanKeysAux, hm]] at h
        have hr := ih cs' k h
        have h2 := regexOccurrence_prepend [c] hr
        simpa using h2

theorem scanKeys_sound {cs : List Char} {k : String}
    (h : k ∈ scanKeys cs) : regexOccurrence cs k.toList :=
  scanKeysAux_sound cs.length cs k h

/-! ## Set lemmas -/

theorem mem_addKey {acc : List String} {x k : String} :
    k ∈ addKey acc x ↔ k ∈ acc ∨ k = x := by
  by_cases h : x ∈ acc
  · simp only [addKey, h, if_true]
    constructor
    · exact Or.inl
    · rintro (hk | rfl)
      · exact hk
      · exact h
  · simp [addKey, h]

theorem nodup_addKey {acc : List String} {k : String} (hn : acc.Nodup) :
    (addKey acc k).Nodup := by
  by_cases h : k ∈ acc
  · simpa [addKey, h] using hn
  · simp only [addKey, h, if_false]
    refine List.Nodup.append hn (List.nodup_singleton k) ?_
    intro a ha hb
    simp at hb
    subst hb
    exact h ha

theorem nodup_foldl_addKey :
    ∀ (ks acc : List String), acc.Nodup → (ks.foldl addKey acc).Nodup := by
  intro ks
  induction ks with
  | nil => intro acc h; exact h
  | cons x ks ih => intro acc h; exact ih _ (nodup_addKey h)

theorem mem_foldl_addKey :
    ∀ (ks acc : List String) (k : String),
      k ∈ ks.foldl addKey acc ↔ k ∈ acc ∨ k ∈ ks := by
  intro ks
  induction ks with
  | nil => simp
  | cons x ks ih =>
    intro acc k
    rw [List.foldl_cons, ih, mem_addKey]
    simp [List.mem_cons]
    tauto

theorem nodup_usedFold :
    ∀ (files acc : List String), acc.Nodup →
      (files.foldl (fun used f =>
        (extractToggleKeysFromFile f).foldl addKey used) acc).Nodup := by
  intro files
  induction files with
  | nil => intro acc h; exact h
  | cons f files ih => intro acc h; exact ih _ (nodup_foldl_addKey _ _ h)

theorem nodup_usedOfFiles (files : List String) : (usedOfFiles files).Nodup :=
  nodup_usedFold files [] List.nodup_nil

theorem mem_usedFold :
    ∀ (files acc : List String) (k : String),
      k ∈ files.foldl (fun used f =>
        (extractToggleKeysFromFile f).foldl addKey used) acc ↔
      k ∈ acc ∨ ∃ f ∈ files, k ∈ extractToggleKeysFromFile f := by
  intro files
  induction files with
  | nil => simp
  | cons f files ih =>
    intro acc k
    rw [List.foldl_cons, ih, mem_foldl_addKey]
    constructor
    · rintro ((h | h) | ⟨g, hg, hk⟩)
      · exact Or.inl h
      · exact Or.inr ⟨f, by simp, h⟩
      · exact Or.inr ⟨g, by simp [hg], hk⟩
    · rintro (h | ⟨g, hg, hk⟩)
      · exact Or.inl (Or.inl h)
      · rcases List.mem_cons.mp hg with rfl | hg'
        · exact Or.inl (Or.inr hk)
        · exact Or.inr ⟨g, hg', hk⟩

theorem mem_usedOfFiles {files : List String} {k : String} :
    k ∈ usedOfFiles files ↔ ∃ f ∈ files, k ∈ extractToggleKeysFromFile f := by
  unfold usedOfFiles
  rw [mem_usedFold]
  simp

theorem mem_extractKeysFromFile {content k : String} :
    k ∈ extractToggleKeysFromFile content ↔ k ∈ scanKeys content.toList := by
  unfold extractToggleKeysFromFile
  rw [mem_foldl_addKey]
  simp

/-! ## Walk lemmas -/

theorem walkJsFiles_append :
    ∀ xs ys : List FsEntry,
      walkJsFiles (xs ++ ys) = walkJsFiles xs ++ walkJsFiles ys := by
  intro xs
  induction xs with
  | nil => intro ys; simp [walkJsFiles]
  | cons e xs ih =>
    intro ys
    simp [walkJsFiles, ih, List.append_assoc]

theorem walk_drops_node_modules :
    ∀ (xs ys es : List FsEntry),
      walkJsFiles (xs ++ FsEntry.dir "node_modules" es :: ys) =
        walkJsFiles (xs ++ ys) := by
  intro xs ys es
  rw [walkJsFiles_append, walkJsFiles_append]
  simp [walkJsFiles, walkEntry]

/-! ## Run lemmas -/

theorem exitCode_zero_of_loaded {m : Option JsonValue} {d : List JsonValue}
    (t : List FsEntry) (h : loadManifest m = some d) :
    (enforceTogglesMain m t).exitCode = 0 := by
  by_cases hu : (computeUnknown d (extractAllUsedKeys t)).length > 0
  · simp [enforceTogglesMain, h, hu, RunResult.exitCode]
  · simp [enforceTogglesMain, h, hu, RunResult.exitCode]

/-! ## Claim theorems -/

/-- C1 (counterexample): a manifest file containing the valid JSON document
`null` loads and parses successfully (the parse result is present), yet the
run terminates with exit status 2, not the success status 0 — so "every
manifest that loads and parses successfully exits 0" fails. -/
theorem claim_C1_counterexample :
    (some JsonValue.null).isSome = true ∧
    (enforceTogglesMain (some JsonValue.null) []).exitCode = 2 := by
  constructor
  · rfl
  · rfl

/-- C1 (amended): for every source tree, a manifest that parses to any JSON
value other than `null` yields exit status 0 regardless of the unknown-key
set; an unreadable/unparsable manifest, or one parsing to JSON `null`
(where the key extraction throws inside the guarded region), yields the
distinct exit status 2. -/
theorem claim_C1 :
    ∀ (t : List FsEntry) (v : JsonValue), v ≠ JsonValue.null →
      (enforceTogglesMain (some v) t).exitCode = 0 ∧
      (enforceTogglesMain none t).exitCode = 2 ∧
      (enforceTogglesMain (some JsonValue.null) t).exitCode = 2 := by
  intro t v hv
  refine ⟨?_, rfl, rfl⟩
  have hl : ∃ d, loadManifestValue v = some d := by
    cases v with
    | null => exact absurd rfl hv
    | bool b => exact ⟨_, rfl⟩
    | num q => exact ⟨_, rfl⟩
    | str s => exact ⟨_, rfl⟩
    | arr xs => exact ⟨_, rfl⟩
    | obj kvs => exact ⟨_, rfl⟩
  obtain ⟨d, hd⟩ := hl
  have hm : loadManifest (some v) = some d := by
    simp [loadManifest, hd]
  exact exitCode_zero_of_loaded t hm

/-- C1 witness. -/
theorem claim_C1_witness :
    JsonValue.arr [] ≠ JsonValue.null ∧
    (enforceTogglesMain (some (JsonValue.arr [])) []).exitCode = 0 ∧
    (enforceTogglesMain none []).exitCode = 2 ∧
    (enforceTogglesMain (some JsonValue.null) []).exitCode = 2 :=
  ⟨(fun h => nomatch h), claim_C1 [] (JsonValue.arr []) (fun h => nomatch h)⟩

/-- C3: loadManifest turns a parsed JSON array into its element list and a
parsed JSON object into its key list, and consequently the manifest
`["a","b"]` and the manifest `{"a":{}, "b":{}}` give identical run results
on every source tree. -/
theorem claim_C3 :
    (∀ xs : List JsonValue, loadManifestValue (JsonValue.arr xs) = some xs) ∧
    (∀ kvs : List (String × JsonValue),
      loadManifestValue (JsonValue.obj kvs) =
        some (kvs.map fun kv => JsonValue.str kv.1)) ∧
    (∀ t : List FsEntry,
      enforceTogglesMain
        (some (JsonValue.arr [JsonValue.str "a", JsonValue.str "b"])) t =
      enforceTogglesMain
        (some (JsonValue.obj [("a", JsonValue.obj []), ("b", JsonValue.obj [])]))
        t) :=
  ⟨fun _ => rfl, fun _ => rfl, fun _ => rfl⟩

/-- C4: the unknown-key list is the pure set difference of the used keys
and the manifest keys: a key is reported if and only if it is used and no
manifest element is that string. -/
theorem claim_C4 :
    ∀ (defined : List JsonValue) (used : List String) (k : String),
      k ∈ computeUnknown defined used ↔
        k ∈ used ∧ setHasStr defined k = false := by
  intro d u k
  simp [computeUnknown, List.mem_filter]

/-- C7: the hook returns the entitlements mapping's value for the key when
the key is an own property, and the configured `defaultValue` when the key
is absent or the mapping is null/undefined; `defaultValue` defaults to
`true`. -/
theorem claim_C7 :
    (∀ (k : String) (opts : HookOptions),
      (useReleaseToggle k opts none).1 = opts.defaultValue) ∧
    (∀ (k : String) (opts : HookOptions) (m : List (String × JsonValue)),
      hasOwnProp m k = true →
      (useReleaseToggle k opts (some m)).1 = lookupProp m k) ∧
    (∀ (k : String) (opts : HookOptions) (m : List (String × JsonValue)),
      hasOwnProp m k = false →
      (useReleaseToggle k opts (some m)).1 = opts.defaultValue) ∧
    ({} : HookOptions).defaultValue = JsonValue.bool true := by
  refine ⟨fun k opts => rfl, ?_, ?_, rfl⟩
  · intro k opts m h
    simp [useReleaseToggle, h]
  · intro k opts m h
    simp [useReleaseToggle, h]

/-- C7 witness. -/
theorem claim_C7_witness :
    hasOwnProp [("f", JsonValue.bool false)] "f" = true ∧
    (useReleaseToggle "f" {} (some [("f", JsonValue.bool false)])).1 =
      lookupProp [("f", JsonValue.bool false)] "f" ∧
    hasOwnProp [("f", JsonValue.bool false)] "g" = false ∧
    (useReleaseToggle "g" {} (some [("f", JsonValue.bool false)])).1 =
      ({} : HookOptions).defaultValue :=
  ⟨rfl, claim_C7.2.1 "f" {} [("f", JsonValue.bool false)] rfl, rfl,
    claim_C7.2.2.1 "g" {} [("f", JsonValue.bool false)] rfl⟩

/-- C9: on every run whose manifest loads, exactly one console message is
emitted: a single warning carrying the whole unknown-key list when it is
non-empty, and a single success notice when it is empty. -/
theorem claim_C9 :
    ∀ (m : Option JsonValue) (t : List FsEntry) (d : List JsonValue),
      loadManifest m = some d →
      (enforceTogglesMain m t).messages.length = 1 ∧
      (computeUnknown d (extractAllUsedKeys t) ≠ [] →
        (enforceTogglesMain m t).messages =
          [Message.warning (computeUnknown d (extractAllUsedKeys t))]) ∧
      (computeUnknown d (extractAllUsedKeys t) = [] →
        (enforceTogglesMain m t).messages = [Message.success]) := by
  intro m t d h
  by_cases hu : computeUnknown d (extractAllUsedKeys t) = []
  · simp [enforceTogglesMain, h, hu, RunResult.messages]
  · have hlen : 0 < (computeUnknown d (extractAllUsedKeys t)).length :=
      List.length_pos.mpr hu
    simp [enforceTogglesMain, h, hu, hlen, RunResult.messages]

/-- C9 witness. -/
theorem claim_C9_witness :
    loadManifest (some (JsonValue.arr [])) = some [] ∧
    (enforceTogglesMain (some (JsonValue.arr [])) []).messages.length = 1 :=
  ⟨rfl, (claim_C9 (some (JsonValue.arr [])) [] [] rfl).1⟩

/-- C10: the fatal path is exactly a throw inside loadManifest's guarded
region — a manifest parsing to JSON `null` is fatal (exit 2) because the
key extraction throws on `null`, while a manifest parsing to a JSON number
behaves like an empty key set and one parsing to a JSON string behaves
like the manifest of its character indices. -/
theorem claim_C10 :
    (∀ t : List FsEntry,
      enforceTogglesMain (some JsonValue.null) t = RunResult.fatal 2) ∧
    (∀ (q : Int) (t : List FsEntry),
      enforceTogglesMain (some (JsonValue.num q)) t =
        enforceTogglesMain (some (JsonValue.arr [])) t) ∧
    (∀ (s : String) (t : List FsEntry),
      enforceTogglesMain (some (JsonValue.str s)) t =
        enforceTogglesMain
          (some (JsonValue.arr
            ((List.range s.length).map fun i => JsonValue.str (Nat.repr i))))
          t) :=
  ⟨fun _ => rfl, fun _ _ => rfl, fun _ _ => rfl⟩

/-- C5: the aggregated used-key set is duplicate-free, and a key that is
used and absent from the manifest appears exactly once in the used-key set
and exactly once in the unknown-key report, no matter how many files and
call sites reference it. -/
theorem claim_C5 :
    ∀ (tree : List FsEntry) (defined : List JsonValue) (k : String),
      (extractAllUsedKeys tree).Nodup ∧
      (k ∈ extractAllUsedKeys tree → setHasStr defined k = false →
        (extractAllUsedKeys tree).count k = 1 ∧
        (computeUnknown defined (extractAllUsedKeys tree)).count k = 1) := by
  intro tree d k
  have hn : (extractAllUsedKeys tree).Nodup :=
    nodup_usedOfFiles (walkJsFiles tree)
  refine ⟨hn, fun hk hd => ⟨?_, ?_⟩⟩
  · exact List.count_eq_one_of_mem hn hk
  · have hn2 : (computeUnknown d (extractAllUsedKeys tree)).Nodup :=
      List.Nodup.filter _ hn
    have hk2 : k ∈ computeUnknown d (extractAllUsedKeys tree) :=
      List.mem_filter.mpr ⟨hk, by simp [hd]⟩
    exact List.count_eq_one_of_mem hn2 hk2

/-- C5 witness: one key referenced at five call sites across three files
appears once in the used-key set and once in the unknown-key report. -/
theorem claim_C5_witness :
    "dup" ∈ extractAllUsedKeys
      [FsEntry.file "a.js" "useReleaseToggle('dup') useReleaseToggle('dup')",
       FsEntry.file "b.jsx" "useReleaseToggle('dup') useReleaseToggle('dup')",
       FsEntry.file "c.ts" "useReleaseToggle('dup')"] ∧
    setHasStr [JsonValue.str "other"] "dup" = false ∧
    (extractAllUsedKeys
      [FsEntry.file "a.js" "useReleaseToggle('dup') useReleaseToggle('dup')",
       FsEntry.file "b.jsx" "useReleaseToggle('dup') useReleaseToggle('dup')",
       FsEntry.file "c.ts" "useReleaseToggle('dup')"]).count "dup" = 1 ∧
    (computeUnknown [JsonValue.str "other"]
      (extractAllUsedKeys
        [FsEntry.file "a.js" "useReleaseToggle('dup') useReleaseToggle('dup')",
         FsEntry.file "b.jsx" "useReleaseToggle('dup') useReleaseToggle('dup')",
         FsEntry.file "c.ts" "useReleaseToggle('dup')"])).count "dup" = 1 :=
  ⟨by decide, by decide,
    (claim_C5
      [FsEntry.file "a.js" "useReleaseToggle('dup') useReleaseToggle('dup')",
       FsEntry.file "b.jsx" "useReleaseToggle('dup') useReleaseToggle('dup')",
       FsEntry.file "c.ts" "useReleaseToggle('dup')"]
      [JsonValue.str "other"] "dup").2 (by decide) (by decide)⟩

/-- C6: file discovery drops every directory named `node_modules` wherever
it occurs, recurses into every other directory, and keeps exactly the files
whose name ends in `.js`, `.jsx`, `.ts` or `.tsx`; consequently a toggle
call inside a `node_modules` directory contributes nothing to the used-key
set. -/
theorem claim_C6 :
    (∀ (xs ys es : List FsEntry),
      walkJsFiles (xs ++ FsEntry.dir "node_modules" es :: ys) =
        walkJsFiles (xs ++ ys)) ∧
    (∀ (n : String) (es rest : List FsEntry), n ≠ "node_modules" →
      walkJsFiles (FsEntry.dir n es :: rest) =
        walkJsFiles es ++ walkJsFiles rest) ∧
    (∀ (n c : String) (rest : List FsEntry),
      walkJsFiles (FsEntry.file n c :: rest) =
        (if hasSourceExt n then [c] else []) ++ walkJsFiles rest) ∧
    (∀ (xs ys es : List FsEntry),
      extractAllUsedKeys (xs ++ FsEntry.dir "node_modules" es :: ys) =
        extractAllUsedKeys (xs ++ ys)) := by
  refine ⟨walk_drops_node_modules, ?_, ?_, ?_⟩
  · intro n es rest hne
    simp [walkJsFiles, walkEntry, hne]
  · intro n c rest
    simp [walkJsFiles, walkEntry]
  · intro xs ys es
    unfold extractAllUsedKeys
    rw [walk_drops_node_modules]

/-- C6 witness: a vendored toggle call contributes nothing. -/
theorem claim_C6_witness :
    "src" ≠ "node_modules" ∧
    walkJsFiles [FsEntry.dir "src" [FsEntry.file "a.js" "x"]] =
      walkJsFiles [FsEntry.file "a.js" "x"] ++ walkJsFiles ([] : List FsEntry) ∧
    extractAllUsedKeys
      [FsEntry.dir "node_modules"
         [FsEntry.file "v.js" "useReleaseToggle('vendored')"],
       FsEntry.file "a.js" "useReleaseToggle('used')"] =
      extractAllUsedKeys [FsEntry.file "a.js" "useReleaseToggle('used')"] :=
  ⟨by decide,
    claim_C6.2.1 "src" [FsEntry.file "a.js" "x"] [] (by decide),
    claim_C6.2.2.2 []
      [FsEntry.file "a.js" "useReleaseToggle('used')"]
      [FsEntry.file "v.js" "useReleaseToggle('vendored')"]⟩

/-- C8: one run is a pure function of the manifest and tree (running twice
gives the same result), and the used-key set and unknown-key set are
invariant, as sets, under any permutation of the traversal order of the
files. -/
theorem claim_C8 :
    (∀ (m : Option JsonValue) (t : List FsEntry),
      enforceTogglesMain m t = enforceTogglesMain m t) ∧
    (∀ (files1 files2 : List String), files1.Perm files2 →
      (∀ k : String, k ∈ usedOfFiles files1 ↔ k ∈ usedOfFiles files2) ∧
      (∀ (defined : List JsonValue) (k : String),
        k ∈ computeUnknown defined (usedOfFiles files1) ↔
          k ∈ computeUnknown defined (usedOfFiles files2))) := by
  refine ⟨fun m t => rfl, ?_⟩
  intro files1 files2 hp
  have hmem : ∀ k : String, k ∈ usedOfFiles files1 ↔ k ∈ usedOfFiles files2 := by
    intro k
    rw [mem_usedOfFiles, mem_usedOfFiles]
    constructor
    · rintro ⟨f, hf, hk⟩
      exact ⟨f, hp.mem_iff.mp hf, hk⟩
    · rintro ⟨f, hf, hk⟩
      exact ⟨f, hp.mem_iff.mpr hf, hk⟩
  refine ⟨hmem, ?_⟩
  intro d k
  unfold computeUnknown
  rw [List.mem_filter, List.mem_filter, hmem k]

/-- C8 witness: the same two files in either order give the same used-key
set membership. -/
theorem claim_C8_witness :
    List.Perm ["useReleaseToggle('a')", "useReleaseToggle('b')"]
      ["useReleaseToggle('b')", "useReleaseToggle('a')"] ∧
    ("a" ∈ usedOfFiles ["useReleaseToggle('a')", "useReleaseToggle('b')"] ↔
      "a" ∈ usedOfFiles ["useReleaseToggle('b')", "useReleaseToggle('a')"]) :=
  ⟨List.Perm.swap _ _ _,
    ((claim_C8.2 ["useReleaseToggle('a')", "useReleaseToggle('b')"]
      ["useReleaseToggle('b')", "useReleaseToggle('a')"]
      (List.Perm.swap _ _ _)).1 "a")⟩

theorem char_eq_of_val_eq {a b : Char} (h : a.val = b.val) : a = b := by
  cases a
  cases b
  simp at h
  subst h
  rfl

theorem isQuoteChar_elim {c : Char} (h : isQuoteChar c = true) :
    c = Char.ofNat 39 ∨ c = Char.ofNat 34 ∨ c = Char.ofNat 96 := by
  simp [isQuoteChar] at h
  rcases h with (h | h) | h
  · exact Or.inl (char_eq_of_val_eq (by rw [h]; rfl))
  · exact Or.inr (Or.inl (char_eq_of_val_eq (by rw [h]; rfl)))
  · exact Or.inr (Or.inr (char_eq_of_val_eq (by rw [h]; rfl)))

/-- C2 (counterexample): extraction is not "exactly the set of
first-argument string literals of occurrences of the spec's pattern", in
either direction.  First, in the content
`useReleaseToggle('useReleaseToggle( 'b'` the pattern occurs starting
inside the first match with capture `b` (shown by the explicit
decomposition), but the global-regex loop resumes after the first match, so
`b` is never extracted.  Second, for a backtick template with an embedded
substitution — `useReleaseToggle(\x60a$\x7bx\x7d\x60)`, i.e. a backtick
literal whose body is `a$` + brace + `x` + brace — the code captures the
whole body verbatim even though the spec's pattern ("backtick-delimited
with no embedded substitution") has no occurrence with that capture, so a
non-literal computed-template argument does contribute a key. -/
theorem claim_C2_counterexample :
    (toggleOccurrence "useReleaseToggle('useReleaseToggle( 'b'".toList
        "b".toList ∧
      "b" ∉ extractToggleKeysFromFile
        "useReleaseToggle('useReleaseToggle( 'b'") ∧
    ("a$\x7bx\x7d" ∈ extractToggleKeysFromFile
        "useReleaseToggle(\x60a$\x7bx\x7d\x60)" ∧
      ¬ toggleOccurrence "useReleaseToggle(\x60a$\x7bx\x7d\x60)".toList
          "a$\x7bx\x7d".toList) := by
  refine ⟨⟨?_, by decide⟩, by decide, ?_⟩
  · refine ⟨"useReleaseToggle('".toList, [], [Char.ofNat 32], [],
      Char.ofNat 40, Char.ofNat 39, ?_, ?_, ?_, ?_, ?_, ?_, ?_, ?_⟩ <;> decide
  · rintro ⟨pre, ws1, ws2, post, po, q, he, hws1, hws2, hpo, hq, hne, hnq, hsub⟩
    have hinf : [q] ++ "a$\x7bx\x7d".toList ++ [q] <:+:
        "useReleaseToggle(\x60a$\x7bx\x7d\x60)".toList := by
      refine ⟨pre ++ hookName ++ ws1 ++ po :: ws2, post, ?_⟩
      rw [he]
      simp
    rcases isQuoteChar_elim hq with rfl | rfl | rfl
    · exact absurd hinf (by decide)
    · exact absurd hinf (by decide)
    · exact absurd (hsub (by decide)) (by decide)

/-- C2 (amended): every key returned by extraction is the verbatim capture
(no escape processing) of an occurrence of the textual pattern the regex
actually implements — hook name, optional whitespace, `(`, optional
whitespace, an opening quote character, a non-empty quote-free run, and a
closing quote character, where the closing delimiter need not match the
opening one and template substitutions are not excluded.  That pattern is a
relaxation of the spec's pattern: every spec-pattern occurrence is a regex
occurrence.  On the spec's example source the used-key set is exactly
`{known, unknown1}` — the variable-argument call contributes nothing.
Occurrences beginning inside an earlier match are skipped by the global
loop, and a backtick template with an embedded substitution is captured,
so extraction is not exactly the spec-pattern captures (see the
counterexample). -/
theorem claim_C2 :
    (∀ (content k : String), k ∈ extractToggleKeysFromFile content →
      regexOccurrence content.toList k.toList) ∧
    (∀ (cs key : List Char), toggleOccurrence cs key → regexOccurrence cs key) ∧
    extractToggleKeysFromFile
      "useReleaseToggle('known') useReleaseToggle(\"unknown1\") useReleaseToggle(variableName)" =
      ["known", "unknown1"] := by
  refine ⟨?_, ?_, by decide⟩
  · intro content k hk
    exact scanKeys_sound (mem_extractKeysFromFile.mp hk)
  · rintro cs key ⟨pre, ws1, ws2, post, po, q, he, hws1, hws2, hpo, hq, hne,
      hnq, hsub⟩
    exact ⟨pre, ws1, ws2, post, po, q, q, he, hws1, hws2, hpo, hq, hq, hne, hnq⟩

/-- C2 witness: both hypotheses discharged concretely — soundness at the
key `known`, and the spec-to-regex relaxation at an explicit double-quoted
occurrence. -/
theorem claim_C2_witness :
    ("known" ∈ extractToggleKeysFromFile "useReleaseToggle('known')" ∧
      regexOccurrence "useReleaseToggle('known')".toList "known".toList) ∧
    (toggleOccurrence "useReleaseToggle(\"k2\")".toList "k2".toList ∧
      regexOccurrence "useReleaseToggle(\"k2\")".toList "k2".toList) := by
  have hspec : toggleOccurrence "useReleaseToggle(\"k2\")".toList "k2".toList := by
    refine ⟨[], [], [], ")".toList, Char.ofNat 40, Char.ofNat 34,
      ?_, ?_, ?_, ?_, ?_, ?_, ?_, ?_⟩ <;> decide
  exact ⟨⟨by decide, claim_C2.1 "useReleaseToggle('known')" "known" (by decide)⟩,
    hspec, claim_C2.2.1 _ _ hspec⟩
